import Mathlib

/-
Verification of the obsidianMCP note-vault server (src/index.ts).

The server's core — path resolution (`getSafePath`), the note-store
primitives (read/write/append/patch on files), the markdown scanner
(`glob` with ignore patterns), the substring search with snippet
extraction, and the tool dispatcher with its surrounding try/catch —
is embedded shallowly below.  JS strings are modelled as Lean `String`
(lists of `Char`, ASCII case folding); the filesystem is a finite
association list from absolute file paths to text contents (directories
are not modelled: `fs.mkdir recursive` always succeeds, matching its use
before every write, and paths are taken to be well-formed keys).
-/

namespace Obsidian

/-- Models JS `String.prototype.startsWith` (character-wise). -/
def strStartsWith (s pre : String) : Bool := pre.data.isPrefixOf s.data

/-- Models JS `String.prototype.endsWith`. -/
def strEndsWith (s suf : String) : Bool := suf.data.isSuffixOf s.data

/-- Models JS `toLowerCase` (per-character ASCII case folding). -/
def strToLower (s : String) : String := String.mk (s.data.map Char.toLower)

/-- Splits a character list at each slash; `cur` holds the current segment reversed. -/
def splitSegsAux : List Char → List Char → List String
  | cur, [] => [String.mk cur.reverse]
  | cur, c :: rest =>
    if c = '/' then String.mk cur.reverse :: splitSegsAux [] rest
    else splitSegsAux (c :: cur) rest

/-- Slash-separated segments of a path string. -/
def splitSegs (p : String) : List String := splitSegsAux [] p.data

/-- Joins segments back with slashes. -/
def joinSegs : List String → String
  | [] => ""
  | [s] => s
  | s :: rest => s ++ "/" ++ joinSegs rest

/-- Normalizes the segments of an absolute path: empty and `.` segments are
dropped, `..` pops the previous segment (and is dropped at the root), as in
Node's path normalization. `acc` holds the kept segments reversed. -/
def normSegs : List String → List String → List String
  | acc, [] => acc.reverse
  | acc, seg :: rest =>
    if seg == "" || seg == "." then normSegs acc rest
    else if seg == ".." then
      match acc with
      | [] => normSegs [] rest
      | _ :: t => normSegs t rest
    else normSegs (seg :: acc) rest

/-- Models Node `path.resolve(root, rel)` for an absolute `root` on POSIX:
an absolute `rel` replaces the root, otherwise the two are joined, and the
result is normalized. -/
def resolvePath (root rel : String) : String :=
  let full := if strStartsWith rel "/" then rel else root ++ "/" ++ rel
  "/" ++ joinSegs (normSegs [] (splitSegs full))

/-- A thrown JS error: either a plain `Error(msg)` or an `McpError(code, msg)`. -/
inductive Thrown where
  | err (msg : String)
  | mcpErr (code : Int) (msg : String)
deriving DecidableEq, Repr

/-- The `message` property of a thrown error; `McpError` formats its message
as `MCP error {code\x7d: {msg\x7d`. -/
def Thrown.message : Thrown → String
  | .err m => m
  | .mcpErr code m => "MCP error " ++ toString code ++ ": " ++ m

/-- Embeds `getSafePath` (src/index.ts lines 43-54): resolve the relative
path against the vault root and throw "Access denied" unless the result has
the vault root as a string prefix. -/
def getSafePath (root rel : String) : Except Thrown String :=
  let targetPath := resolvePath root rel
  if strStartsWith targetPath root then .ok targetPath
  else .error (.err "Access denied: Path is outside the vault")

/-- The filesystem: a finite map from absolute file path to text content. -/
abbrev FS := List (String × String)

/-- Models `fs.readFile(p, "utf-8")`: the content at `p`, if present. -/
def readFile (fs : FS) (p : String) : Option String :=
  (fs.find? (fun e => e.1 == p)).map (fun e => e.2)

/-- Models `fs.writeFile(p, c, "utf-8")`: create or fully overwrite. -/
def writeFile (fs : FS) (p c : String) : FS :=
  (p, c) :: fs.filter (fun e => !(e.1 == p))

/-- Models Node `fs.appendFile(p, data)`: appends to the existing content,
or creates the file holding `data` when it does not yet exist (flag "a"). -/
def appendFile (fs : FS) (p data : String) : FS :=
  match readFile fs p with
  | some old => writeFile fs p (old ++ data)
  | none => writeFile fs p data

/-- Index of the first occurrence of `needle` in the haystack (JS
`String.prototype.indexOf`), `none` when absent. -/
def firstMatchIdx (needle : List Char) : List Char → Option Nat
  | [] => if needle.isEmpty then some 0 else none
  | c :: rest =>
    if needle.isPrefixOf (c :: rest) then some 0
    else (firstMatchIdx needle rest).map (· + 1)

/-- Models JS `hay.includes(needle)`. -/
def includesStr (hay needle : String) : Bool :=
  (firstMatchIdx needle.data hay.data).isSome

/-- ECMA-262 GetSubstitution for a string pattern (no capture groups):
expands the dollar escapes in a replacement string — doubled dollar to a
dollar, dollar-ampersand to the matched text, dollar-backquote to the text
before the match, dollar-quote to the text after it; any other dollar is
kept literally. -/
def getSubstitution (matched pre post : List Char) : List Char → List Char
  | [] => []
  | [c] => [c]
  | c :: d :: rest =>
    if c = '$' then
      if d = '$' then '$' :: getSubstitution matched pre post rest
      else if d = '&' then matched ++ getSubstitution matched pre post rest
      else if d = Char.ofNat 96 then pre ++ getSubstitution matched pre post rest
      else if d = Char.ofNat 39 then post ++ getSubstitution matched pre post rest
      else '$' :: getSubstitution matched pre post (d :: rest)
    else c :: getSubstitution matched pre post (d :: rest)

/-- Models JS `s.replace(pat, rep)` with a string pattern: replaces the
first occurrence of `pat`, expanding dollar escapes in `rep`; returns `s`
unchanged when `pat` does not occur. -/
def jsReplace (s pat rep : String) : String :=
  match firstMatchIdx pat.data s.data with
  | none => s
  | some i =>
    let pre := s.data.take i
    let post := s.data.drop (i + pat.data.length)
    String.mk (pre ++ getSubstitution pat.data pre post rep.data ++ post)

/-- A path segment that `glob` hides by default (leading dot, `dot:false`). -/
def hiddenSeg (s : String) : Bool := strStartsWith s "."

/-- Matching of the ignore patterns used by the source: a pattern of the
form `dir/**` matches every path under `dir`, any other pattern matches
only itself. -/
def matchesIgnore (pat rel : String) : Bool :=
  if strEndsWith pat "/**" then
    strStartsWith rel (String.mk (pat.data.take (pat.data.length - 2)))
  else rel == pat

/-- Relative path of `file` under `root`, when `file` lies below it. -/
def relUnder (root file : String) : Option String :=
  if strStartsWith file (root ++ "/") then
    some (String.mk (file.data.drop (root.data.length + 1)))
  else none

/-- Whether one filesystem entry is produced by `glob("**/*.md", ...)` under
`root` with the given ignore patterns: the entry must lie under the root,
carry the `.md` suffix, contain no dot-initial segment (glob's default
`dot:false`), and match no ignore pattern. -/
def globEntry (root : String) (ignore : List String) (e : String × String) : Option String :=
  match relUnder root e.1 with
  | some rel =>
    if strEndsWith rel ".md" && !((splitSegs rel).any hiddenSeg)
        && !(ignore.any (fun pat => matchesIgnore pat rel)) then some rel
    else none
  | none => none

/-- Models `await glob("**/*.md", { cwd, ignore \x7d)`: the matching relative
paths in filesystem-enumeration order. -/
def globMd (fs : FS) (root : String) (ignore : List String) : List String :=
  fs.filterMap (globEntry root ignore)

/-- Ignore patterns of the `search_notes` scan (src/index.ts line 238). -/
def searchIgnore : List String := ["node_modules/**"]

/-- Ignore patterns of `list_notes` and the resource listing (lines 271, 295). -/
def listIgnore : List String := ["node_modules/**", ".git/**", ".obsidian/**"]

/-- One search result: matched relative path and context snippet. -/
structure SearchResult where
  path : String
  snippet : String
deriving DecidableEq, Repr

/-- Embeds the snippet extraction of `search_notes` (lines 247-253): locate
the first occurrence of the lowercased query in the lowercased content and
cut the content from 50 characters before it to 50 characters after the
match plus the query length, replacing newlines by spaces; empty when the
query does not occur in the content. -/
def mkSnippet (content query : String) : String :=
  match firstMatchIdx (strToLower query).data (strToLower content).data with
  | none => ""
  | some index =>
    let start := index - 50
    let stop := min content.data.length (index + query.data.length + 50)
    String.mk (((content.data.drop start).take (stop - start)).map
      (fun ch => if ch = '\n' then ' ' else ch))

/-- Embeds the per-candidate body of the `search_notes` loop (lines 245-258):
a result is produced when the lowercased query occurs in the lowercased
content or the lowercased relative path; its snippet is the extracted
context wrapped in ellipses when that text is nonempty (JS truthiness of
the snippet string), and the marker "Matched in filename" otherwise. -/
def searchFileResult (query file content : String) : Option SearchResult :=
  if includesStr (strToLower content) (strToLower query)
      || includesStr (strToLower file) (strToLower query) then
    let snippet := mkSnippet content query
    some { path := file
           snippet := if snippet == "" then "Matched in filename"
                      else "..." ++ snippet ++ "..." }
  else none

/-- Embeds the `search_notes` accumulation loop (lines 241-262): candidates
are processed in scan order and the loop breaks as soon as 20 results have
been pushed. -/
def searchLoop (query : String) : List (String × String) → List SearchResult → List SearchResult
  | [], results => results.reverse
  | fc :: rest, results =>
    match searchFileResult query fc.1 fc.2 with
    | none => searchLoop query rest results
    | some r =>
      if (r :: results).length ≥ 20 then (r :: results).reverse
      else searchLoop query rest (r :: results)

/-- The (path, content) candidates of a search: each scanned file together
with its content (files that fail to resolve or read are skipped; for glob
outputs under the root this does not occur). -/
def searchCandidates (root : String) (fs : FS) : List (String × String) :=
  (globMd fs root searchIgnore).filterMap (fun f =>
    match getSafePath root f with
    | .ok sp => (readFile fs sp).map (fun c => (f, c))
    | .error _ => none)

/-- The result list of the `search_notes` tool. -/
def searchNotesResults (root : String) (fs : FS) (query : String) : List SearchResult :=
  searchLoop query (searchCandidates root fs) []

/-- The path list of the `list_notes` tool (line 271-272): the scan with the
three ignore patterns, cut to the first `limit` entries. -/
def listNotesPaths (root : String) (fs : FS) (limit : Nat) : List String :=
  (globMd fs root listIgnore).take limit

/-- One entry of the resource listing. -/
structure ResourceEntry where
  uri : String
  name : String
  mimeType : String
deriving DecidableEq, Repr

/-- Embeds the ListResources handler (lines 294-304). -/
def listResources (root : String) (fs : FS) : List ResourceEntry :=
  (globMd fs root listIgnore).map (fun f =>
    { uri := "obsidian:///" ++ f, name := f, mimeType := "text/markdown" })

/-- The result envelope of one tool call: the single text content block and
the `isError` flag (absent in the source means `false`). -/
structure ToolResult where
  text : String
  isError : Bool
deriving DecidableEq, Repr

/-- A CallTool request after argument destructuring: one constructor per
known tool name, plus `unknown` for every other name (the switch default). -/
inductive ToolRequest where
  | read_note (path : String)
  | write_note (path content : String)
  | append_to_note (path content : String)
  | patch_note (path old_text new_text : String)
  | search_notes (query : String)
  | list_notes (limit : Nat)
  | unknown (name : String)
deriving DecidableEq, Repr

/-- Rendering of search results into the response text; stands in for
`JSON.stringify(results, null, 2)`, whose exact text no claim inspects. -/
def renderResults (rs : List SearchResult) : String :=
  String.intercalate "\n" (rs.map (fun r => r.path ++ ": " ++ r.snippet))

/-- Rendering of the listed paths; stands in for `JSON.stringify`. -/
def renderPaths (ps : List String) : String := String.intercalate "\n" ps

/-- Embeds the body of the CallTool switch (lines 170-281), before the
surrounding catch: each case resolves its path through `getSafePath`
(whose failure is thrown), performs its filesystem work and returns the
result together with the updated filesystem; `read_note` converts its own
read failures via its inner catch (lines 184-189); `patch_note` throws when
`old_text` is absent (line 222); the default case throws
`McpError(ErrorCode.MethodNotFound = -32601)` (line 280). -/
def handleCallToolBody (root : String) (fs : FS) : ToolRequest → Except Thrown (ToolResult × FS)
  | .read_note p =>
    match getSafePath root p with
    | .error e => .error e
    | .ok sp =>
      match readFile fs sp with
      | some content => .ok ({ text := content, isError := false }, fs)
      | none => .ok ({ text := "Error reading file: ENOENT: no such file or directory",
                       isError := true }, fs)
  | .write_note p content =>
    match getSafePath root p with
    | .error e => .error e
    | .ok sp =>
      .ok ({ text := "Successfully wrote to " ++ p, isError := false },
           writeFile fs sp content)
  | .append_to_note p content =>
    match getSafePath root p with
    | .error e => .error e
    | .ok sp =>
      .ok ({ text := "Successfully appended to " ++ p, isError := false },
           appendFile fs sp ("\n" ++ content))
  | .patch_note p old new =>
    match getSafePath root p with
    | .error e => .error e
    | .ok sp =>
      match readFile fs sp with
      | none => .error (.err "ENOENT: no such file or directory")
      | some content =>
        if includesStr content old then
          .ok ({ text := "Successfully patched " ++ p, isError := false },
               writeFile fs sp (jsReplace content old new))
        else .error (.err "Could not find old_text in file")
  | .search_notes query =>
    .ok ({ text := renderResults (searchNotesResults root fs query), isError := false }, fs)
  | .list_notes limit =>
    .ok ({ text := renderPaths (listNotesPaths root fs limit), isError := false }, fs)
  | .unknown name => .error (.mcpErr (-32601) ("Unknown tool: " ++ name))

/-- The catch block at lines 282-287: every thrown error — the `McpError`
of the default case included — is converted into an ordinary result whose
text is "Error: " followed by the error's message, flagged `isError`, with
the filesystem untouched. -/
def catchResult (fs : FS) : Except Thrown (ToolResult × FS) → ToolResult × FS
  | .ok r => r
  | .error e => ({ text := "Error: " ++ e.message, isError := true }, fs)

/-- The complete CallTool handler (lines 168-288): the switch body wrapped
in its try/catch. -/
def handleCallTool (root : String) (fs : FS) (req : ToolRequest) : ToolResult × FS :=
  catchResult fs (handleCallToolBody root fs req)

/-- The search primitive reports an occurrence exactly when the needle is an
infix of the haystack. -/
theorem firstMatchIdx_isSome_iff (needle : List Char) :
    ∀ hay : List Char, ((firstMatchIdx needle hay).isSome = true ↔ needle <:+: hay)
  | [] => by
    cases needle with
    | nil => simp [firstMatchIdx]
    | cons c t => simp [firstMatchIdx]
  | c :: rest => by
    by_cases h : needle.isPrefixOf (c :: rest) = true
    · simp only [firstMatchIdx, h, if_pos, Option.isSome_some, true_iff]
      exact (List.isPrefixOf_iff_prefix.mp h).isInfix
    · rw [List.infix_cons_iff]
      simp only [firstMatchIdx, h, if_neg, Bool.false_eq_true, ite_false]
      have hmap : (Option.map (fun x => x + 1) (firstMatchIdx needle rest)).isSome
          = (firstMatchIdx needle rest).isSome := by
        cases firstMatchIdx needle rest <;> rfl
      rw [hmap, firstMatchIdx_isSome_iff needle rest]
      constructor
      · exact Or.inr
      · rintro (hp | hi)
        · exact absurd (List.isPrefixOf_iff_prefix.mpr hp) h
        · exact hi

/-- An index reported by the search primitive is the least position at which
the needle occurs. -/
theorem firstMatchIdx_eq_some (needle : List Char) :
    ∀ (hay : List Char) (i : Nat), firstMatchIdx needle hay = some i →
      needle.isPrefixOf (hay.drop i) = true
      ∧ ∀ j, j < i → needle.isPrefixOf (hay.drop j) = false
  | [], i, h => by
    cases hne : needle with
    | nil =>
      subst hne
      simp only [firstMatchIdx, List.isEmpty_nil, if_pos, Option.some.injEq] at h
      subst h
      exact ⟨rfl, fun j hj => absurd hj (Nat.not_lt_zero j)⟩
    | cons a t =>
      subst hne
      simp [firstMatchIdx] at h
  | c :: rest, i, h => by
    cases hp : needle.isPrefixOf (c :: rest) with
    | true =>
      simp only [firstMatchIdx, hp, if_pos, Option.some.injEq] at h
      subst h
      exact ⟨hp, fun j hj => absurd hj (Nat.not_lt_zero j)⟩
    | false =>
      simp only [firstMatchIdx, hp, Bool.false_eq_true, ite_false] at h
      rcases Option.map_eq_some'.mp h with ⟨i', hsome, hplus⟩
      subst hplus
      have ih := firstMatchIdx_eq_some needle rest i' hsome
      refine ⟨by simpa [List.drop_succ_cons] using ih.1, ?_⟩
      intro j hj
      cases j with
      | zero => simpa using hp
      | succ j' =>
        rw [List.drop_succ_cons]
        exact ih.2 j' (Nat.lt_of_succ_lt_succ hj)

/-- A replacement string with no dollar character is substituted literally. -/
theorem getSubstitution_no_dollar (m pre post : List Char) :
    ∀ rep : List Char, '$' ∉ rep → getSubstitution m pre post rep = rep
  | [], _ => rfl
  | [_], _ => rfl
  | c :: d :: rest, h => by
    have hc : ¬ c = '$' := by
      intro hh
      subst hh
      exact h (List.mem_cons_self _ _)
    have h2 : '$' ∉ d :: rest := by
      intro hh
      exact h (List.mem_cons_of_mem _ hh)
    simp only [getSubstitution, if_neg hc]
    exact congrArg (c :: ·) (getSubstitution_no_dollar m pre post (d :: rest) h2)

/-- Reading a freshly written path returns the written content. -/
theorem readFile_writeFile_self (fs : FS) (p c : String) :
    readFile (writeFile fs p c) p = some c := by
  simp [readFile, writeFile]

/-- The search loop produces the matching candidates, in scan order, cut to
the missing number of results. -/
theorem searchLoop_eq (q : String) :
    ∀ (fcs : List (String × String)) (acc : List SearchResult), acc.length < 20 →
      searchLoop q fcs acc
        = acc.reverse
          ++ (fcs.filterMap (fun fc => searchFileResult q fc.1 fc.2)).take (20 - acc.length)
  | [], acc, _ => by simp [searchLoop]
  | fc :: rest, acc, hlt => by
    simp only [searchLoop, List.filterMap_cons]
    cases hr : searchFileResult q fc.1 fc.2 with
    | none => simpa using searchLoop_eq q rest acc hlt
    | some r =>
      simp only [List.length_cons]
      by_cases h20 : acc.length + 1 ≥ 20
      · rw [if_pos h20]
        have h19 : acc.length = 19 := by omega
        rw [List.reverse_cons, h19]
        simp
      · rw [if_neg h20]
        have hlt2 : (r :: acc).length < 20 := by
          simp only [List.length_cons]
          omega
        rw [searchLoop_eq q rest (r :: acc) hlt2]
        have harr : 20 - acc.length = (20 - (r :: acc).length) + 1 := by
          simp only [List.length_cons]
          omega
        rw [harr, List.take_succ_cons, List.reverse_cons, List.append_assoc]
        simp

/-- The head segment produced by the splitter extends the accumulator. -/
theorem splitSegsAux_first :
    ∀ (l cur : List Char), ∃ s rest, splitSegsAux cur l = String.mk (cur.reverse ++ s) :: rest
  | [], cur => ⟨[], [], by simp [splitSegsAux]⟩
  | c :: t, cur => by
    by_cases hc : c = '/'
    · exact ⟨[], splitSegsAux [] t, by simp [splitSegsAux, hc]⟩
    · obtain ⟨s, rest, hs⟩ := splitSegsAux_first t (c :: cur)
      refine ⟨c :: s, rest, ?_⟩
      simp only [splitSegsAux, if_neg hc]
      rw [hs]
      simp

/-- A relative path with a leading dot has a hidden first segment. -/
theorem splitSegs_any_hidden (rel : String) (h : strStartsWith rel "." = true) :
    (splitSegs rel).any hiddenSeg = true := by
  have h' : List.isPrefixOf ['.'] rel.data = true := h
  unfold splitSegs
  cases hd : rel.data with
  | nil => rw [hd] at h'; simp [List.isPrefixOf] at h'
  | cons c t =>
    rw [hd] at h'
    have hc : c = '.' := by
      simp [List.isPrefixOf] at h'
      exact h'.symm
    subst hc
    have hslash : ('.' : Char) ≠ '/' := by decide
    simp only [splitSegsAux, if_neg hslash]
    obtain ⟨s, rest, hs⟩ := splitSegsAux_first t ['.']
    rw [hs]
    simp [hiddenSeg, strStartsWith, List.isPrefixOf]

/-- String-prefix relations compose. -/
theorem strStartsWith_trans {rel p q : String} (h1 : strStartsWith rel p = true)
    (h2 : strStartsWith p q = true) : strStartsWith rel q = true := by
  unfold strStartsWith at h1 h2 ⊢
  rw [List.isPrefixOf_iff_prefix] at h1 h2 ⊢
  exact h2.trans h1

/-- The two ignore lists of the source admit exactly the same scan entries,
because glob's default dot-handling already hides `.git` and `.obsidian`. -/
theorem globEntry_search_eq_list (root : String) (e : String × String) :
    globEntry root searchIgnore e = globEntry root listIgnore e := by
  unfold globEntry
  cases relUnder root e.1 with
  | none => rfl
  | some rel =>
    cases hany : (splitSegs rel).any hiddenSeg with
    | true => simp [hany]
    | false =>
      have hg : matchesIgnore ".git/**" rel = false := by
        cases hm : matchesIgnore ".git/**" rel with
        | false => rfl
        | true =>
          exfalso
          unfold matchesIgnore at hm
          rw [if_pos (by decide : strEndsWith ".git/**" "/**" = true)] at hm
          have hsw : strStartsWith rel ".git/" = true := hm
          have hdot : strStartsWith rel "." = true := strStartsWith_trans hsw (by decide)
          have hcontra := splitSegs_any_hidden rel hdot
          rw [hany] at hcontra
          exact absurd hcontra (by decide)
      have ho : matchesIgnore ".obsidian/**" rel = false := by
        cases hm : matchesIgnore ".obsidian/**" rel with
        | false => rfl
        | true =>
          exfalso
          unfold matchesIgnore at hm
          rw [if_pos (by decide : strEndsWith ".obsidian/**" "/**" = true)] at hm
          have hsw : strStartsWith rel ".obsidian/" = true := hm
          have hdot : strStartsWith rel "." = true := strStartsWith_trans hsw (by decide)
          have hcontra := splitSegs_any_hidden rel hdot
          rw [hany] at hcontra
          exact absurd hcontra (by decide)
      simp [searchIgnore, listIgnore, hany, hg, ho]

/-- C1: whenever the normalized absolute form of the vault root joined with
the relative path does not have the vault root as a string prefix (the
spec's stated containment boundary, section 3), `getSafePath` fails with the
access-denied error and every path-taking operation returns that error with
the filesystem untouched; conversely every path `getSafePath` returns has
the vault root as a string prefix. -/
theorem getSafePath_prefix_guard (root rel : String) :
    (strStartsWith (resolvePath root rel) root = false →
      getSafePath root rel = .error (.err "Access denied: Path is outside the vault")
      ∧ ∀ (fs : FS) (content old new : String),
          handleCallTool root fs (.read_note rel)
              = ({ text := "Error: Access denied: Path is outside the vault",
                   isError := true }, fs)
          ∧ handleCallTool root fs (.write_note rel content)
              = ({ text := "Error: Access denied: Path is outside the vault",
                   isError := true }, fs)
          ∧ handleCallTool root fs (.append_to_note rel content)
              = ({ text := "Error: Access denied: Path is outside the vault",
                   isError := true }, fs)
          ∧ handleCallTool root fs (.patch_note rel old new)
              = ({ text := "Error: Access denied: Path is outside the vault",
                   isError := true }, fs))
    ∧ ∀ p, getSafePath root rel = .ok p → strStartsWith p root = true := by
  constructor
  · intro h
    have hg : getSafePath root rel
        = .error (.err "Access denied: Path is outside the vault") := by
      simp [getSafePath, h]
    refine ⟨hg, ?_⟩
    intro fs content old new
    refine ⟨?_, ?_, ?_, ?_⟩ <;>
      simp [handleCallTool, handleCallToolBody, hg, catchResult, Thrown.message]
  · intro p hp
    by_cases hb : strStartsWith (resolvePath root rel) root = true
    · simp only [getSafePath, hb, if_pos] at hp
      cases hp
      exact hb
    · simp [getSafePath, hb] at hp

/-- C1 witness: the classic traversal input is denied and writes nothing. -/
theorem getSafePath_prefix_guard_witness :
    getSafePath "/vault" "../../etc/passwd"
        = .error (.err "Access denied: Path is outside the vault")
    ∧ handleCallTool "/vault" [("/vault/a.md", "hi")] (.write_note "../../etc/passwd" "pwn")
        = ({ text := "Error: Access denied: Path is outside the vault", isError := true },
           [("/vault/a.md", "hi")]) := by
  have h := (getSafePath_prefix_guard "/vault" "../../etc/passwd").1 (by decide)
  exact ⟨h.1, ((h.2 [("/vault/a.md", "hi")] "pwn" "" "").2.1)⟩

/-- C9: the containment check is a plain string-prefix test without a
trailing separator, so a sibling directory whose absolute path extends the
vault root's path as a string is accepted: with vault root `/data/vault`,
the input `../vault2/secret.md` resolves to `/data/vault2/secret.md`, which
is outside the vault's directory tree, yet `getSafePath` returns it and the
tools read and write that sibling file. -/
theorem getSafePath_sibling_escape :
    getSafePath "/data/vault" "../vault2/secret.md" = .ok "/data/vault2/secret.md"
    ∧ strStartsWith "/data/vault2/secret.md" ("/data/vault" ++ "/") = false
    ∧ (("/data/vault2/secret.md" : String) == "/data/vault") = false
    ∧ handleCallTool "/data/vault" [] (.write_note "../vault2/secret.md" "pwned")
        = ({ text := "Successfully wrote to ../vault2/secret.md", isError := false },
           [("/data/vault2/secret.md", "pwned")])
    ∧ handleCallTool "/data/vault" [("/data/vault2/secret.md", "secret")]
          (.read_note "../vault2/secret.md")
        = ({ text := "secret", isError := false },
           [("/data/vault2/secret.md", "secret")]) := by
  exact ⟨rfl, by decide, by decide, rfl, rfl⟩

/-- C5: an unknown operation name throws the distinct
`McpError(MethodNotFound)` inside the switch, but the handler's surrounding
catch converts it — like every taxonomy error — into an ordinary non-fatal
result carrying the error flag; it does not propagate as a request-level
failure. -/
theorem unknown_tool_caught :
    handleCallToolBody "/vault" [] (.unknown "does_not_exist")
        = .error (.mcpErr (-32601) "Unknown tool: does_not_exist")
    ∧ handleCallTool "/vault" [] (.unknown "does_not_exist")
        = ({ text := "Error: MCP error -32601: Unknown tool: does_not_exist",
             isError := true }, []) := by
  exact ⟨rfl, rfl⟩

/-- C6: for every path accepted by `getSafePath` and every content,
`write_note` succeeds and a subsequent `read_note` of the same path returns
exactly the written content (directories are created implicitly, modelled by
the directory-free filesystem). -/
theorem write_then_read_roundtrip (root : String) (fs : FS) (p content sp : String)
    (h : getSafePath root p = .ok sp) :
    handleCallTool root fs (.write_note p content)
        = ({ text := "Successfully wrote to " ++ p, isError := false },
           writeFile fs sp content)
    ∧ handleCallTool root (writeFile fs sp content) (.read_note p)
        = ({ text := content, isError := false }, writeFile fs sp content) := by
  constructor
  · simp [handleCallTool, handleCallToolBody, h, catchResult]
  · simp [handleCallTool, handleCallToolBody, h, catchResult, readFile_writeFile_self]

/-- C6 witness: a concrete write/read round trip through a fresh directory. -/
theorem write_then_read_roundtrip_witness :
    handleCallTool "/vault" [] (.write_note "notes/a.md" "hello")
        = ({ text := "Successfully wrote to notes/a.md", isError := false },
           writeFile [] "/vault/notes/a.md" "hello")
    ∧ handleCallTool "/vault" (writeFile [] "/vault/notes/a.md" "hello") (.read_note "notes/a.md")
        = ({ text := "hello", isError := false },
           writeFile [] "/vault/notes/a.md" "hello") := by
  exact write_then_read_roundtrip "/vault" [] "notes/a.md" "hello" "/vault/notes/a.md" rfl

/-- C4: when the note's content does not contain `old_text`, `patch_note`
fails with the patch-target-not-found error as an error-flagged result and
the filesystem is returned unchanged — the error is raised before any
write. -/
theorem patch_note_missing_old_text (root : String) (fs : FS) (p old new sp content : String)
    (h : getSafePath root p = .ok sp) (hr : readFile fs sp = some content)
    (hn : includesStr content old = false) :
    handleCallTool root fs (.patch_note p old new)
        = ({ text := "Error: Could not find old_text in file", isError := true }, fs) := by
  simp [handleCallTool, handleCallToolBody, h, hr, hn, catchResult, Thrown.message]

/-- C4 witness: patching absent text in a concrete vault reports the error
and leaves the file as it was. -/
theorem patch_note_missing_old_text_witness :
    handleCallTool "/vault" [("/vault/a.md", "hello")] (.patch_note "a.md" "zzz" "y")
        = ({ text := "Error: Could not find old_text in file", isError := true },
           [("/vault/a.md", "hello")]) := by
  exact patch_note_missing_old_text "/vault" [("/vault/a.md", "hello")] "a.md" "zzz" "y"
    "/vault/a.md" "hello" rfl rfl rfl

/-- C2 counterexample: `append_to_note` on a path whose file does not exist
does not fail — Node's `fs.appendFile` creates the file — so the claimed
NotFound failure and the claimed absence of implicit creation are both
refuted at this input. -/
theorem append_creates_missing_file_cex :
    readFile ([] : FS) "/vault/a.md" = none
    ∧ handleCallTool "/vault" [] (.append_to_note "a.md" "B")
        = ({ text := "Successfully appended to a.md", isError := false },
           [("/vault/a.md", "\nB")]) := by
  exact ⟨rfl, rfl⟩

/-- C2 amended: `append_to_note` on a missing file (whose parent directory
exists) succeeds and creates the file holding a newline followed by the
content, because `fs.appendFile` creates absent files; on an existing file
with content `A` it appends a newline followed by the content, yielding
`A` ++ newline ++ content. -/
theorem append_to_note_spec (root : String) (fs : FS) (p content sp : String)
    (h : getSafePath root p = .ok sp) :
    (readFile fs sp = none →
      handleCallTool root fs (.append_to_note p content)
        = ({ text := "Successfully appended to " ++ p, isError := false },
           writeFile fs sp ("\n" ++ content)))
    ∧ ∀ A, readFile fs sp = some A →
      handleCallTool root fs (.append_to_note p content)
        = ({ text := "Successfully appended to " ++ p, isError := false },
           writeFile fs sp (A ++ ("\n" ++ content))) := by
  constructor
  · intro hn
    simp [handleCallTool, handleCallToolBody, h, catchResult, appendFile, hn]
  · intro A hA
    simp [handleCallTool, handleCallToolBody, h, catchResult, appendFile, hA]

/-- C2 witness: appending "B" to a file holding "A" yields "A\nB". -/
theorem append_to_note_spec_witness :
    handleCallTool "/vault" [("/vault/a.md", "A")] (.append_to_note "a.md" "B")
        = ({ text := "Successfully appended to a.md", isError := false },
           writeFile [("/vault/a.md", "A")] "/vault/a.md" ("A" ++ ("\n" ++ "B"))) := by
  exact (append_to_note_spec "/vault" [("/vault/a.md", "A")] "a.md" "B" "/vault/a.md" rfl).2
    "A" rfl

/-- C3 counterexample: the replacement is not literal for every `new_text` —
JS `String.replace` expands dollar patterns in the replacement, so patching
content "x x" replacing "x" by the new text dollar-ampersand twice yields
"xx x", not the literal result. -/
theorem patch_dollar_cex :
    handleCallTool "/vault" [("/vault/a.md", "x x")] (.patch_note "a.md" "x" "$&$&")
        = ({ text := "Successfully patched a.md", isError := false },
           [("/vault/a.md", "xx x")])
    ∧ String.mk ("x x".data.take 0 ++ "$&$&".data ++ "x x".data.drop 1) = "$&$& x"
    ∧ ((jsReplace "x x" "x" "$&$&") == "$&$& x") = false := by
  exact ⟨rfl, rfl, by decide⟩

/-- C3 amended: when the content contains `old_text`, `patch_note` writes
back the content with exactly the first (least-index) occurrence of
`old_text` replaced by `new_text` expanded per the ECMA-262 dollar rules;
when `new_text` contains no dollar character, the replacement is literal,
and all later occurrences stay intact in the unchanged tail. -/
theorem patch_note_first_occurrence (root : String) (fs : FS) (p old new sp content : String)
    (i : Nat) (h : getSafePath root p = .ok sp) (hr : readFile fs sp = some content)
    (hi : firstMatchIdx old.data content.data = some i) (hd : '$' ∉ new.data) :
    handleCallTool root fs (.patch_note p old new)
        = ({ text := "Successfully patched " ++ p, isError := false },
           writeFile fs sp
             (String.mk (content.data.take i ++ new.data
               ++ content.data.drop (i + old.data.length))))
    ∧ old.data.isPrefixOf (content.data.drop i) = true
    ∧ ∀ j, j < i → old.data.isPrefixOf (content.data.drop j) = false := by
  have hspec := firstMatchIdx_eq_some old.data content.data i hi
  have hinc : includesStr content old = true := by
    rw [includesStr, hi]
    rfl
  have hrep : jsReplace content old new
      = String.mk (content.data.take i ++ new.data
          ++ content.data.drop (i + old.data.length)) := by
    simp only [jsReplace, hi]
    rw [getSubstitution_no_dollar old.data _ _ new.data hd]
  refine ⟨?_, hspec.1, hspec.2⟩
  simp [handleCallTool, handleCallToolBody, h, hr, hinc, catchResult, hrep]

/-- C3 witness: the spec's own example — content "x x", old "x", new "y" —
patches to "y x", replacing only the first occurrence. -/
theorem patch_note_first_occurrence_witness :
    handleCallTool "/vault" [("/vault/a.md", "x x")] (.patch_note "a.md" "x" "y")
        = ({ text := "Successfully patched a.md", isError := false },
           writeFile [("/vault/a.md", "x x")] "/vault/a.md"
             (String.mk ("x x".data.take 0 ++ "y".data ++ "x x".data.drop (0 + "x".data.length))))
    ∧ [("/vault/a.md", "x x")].map
        (fun e => (e.1, jsReplace e.2 "x" "y")) = [("/vault/a.md", "y x")] := by
  refine ⟨(patch_note_first_occurrence "/vault" [("/vault/a.md", "x x")] "a.md" "x" "y"
    "/vault/a.md" "x x" 0 rfl rfl rfl (by decide)).1, rfl⟩

/-- Projecting the snippet of a result literal under a known branch test. -/
theorem snippet_of_empty (f M E X : String) (h : (X == "") = true) :
    ({ path := f, snippet := if (X == "") = true then M else E } : SearchResult).snippet = M := by
  simp [h]

/-- Projecting the snippet of a result literal when the test is false. -/
theorem snippet_of_ne (f M E X : String) (h : (X == "") = false) :
    ({ path := f, snippet := if (X == "") = true then M else E } : SearchResult).snippet = E := by
  simp [h]

/-- C7 counterexample: with an empty query and an empty file there is a
content match — the empty query occurs in the empty content — yet the
extracted snippet text is empty, which is falsy in JS, so the result is
marked "Matched in filename" instead of the claimed ellipsis-wrapped
content snippet. -/
theorem search_empty_snippet_cex :
    includesStr (strToLower "") (strToLower "") = true
    ∧ firstMatchIdx (strToLower "").data (strToLower "").data = some 0
    ∧ searchFileResult "" "a.md" "" = some { path := "a.md", snippet := "Matched in filename" }
    ∧ (("Matched in filename" : String) == "..." ++ "" ++ "...") = false := by
  exact ⟨rfl, rfl, rfl, by decide⟩

/-- C7 amended: a candidate is reported exactly when the lowercased query is
a substring of the lowercased content or of the lowercased relative path; on
a content match at the first (least) lowercased occurrence index, the
snippet is the content from up to 50 characters before the match to up to
50 characters after the match plus the query length, newlines replaced by
spaces and wrapped in ellipses, provided that extracted text is nonempty;
on a filename-only match — or on a content match whose extracted text is
empty, which happens only for empty content — the snippet is exactly
"Matched in filename". -/
theorem search_match_snippet (q f c : String) :
    ((searchFileResult q f c).isSome = true ↔
      ((strToLower q).data <:+: (strToLower c).data
        ∨ (strToLower q).data <:+: (strToLower f).data))
    ∧ (∀ r, searchFileResult q f c = some r → r.path = f)
    ∧ (firstMatchIdx (strToLower q).data (strToLower c).data = none →
        ∀ r, searchFileResult q f c = some r → r.snippet = "Matched in filename")
    ∧ ∀ i, firstMatchIdx (strToLower q).data (strToLower c).data = some i →
        ((strToLower q).data.isPrefixOf ((strToLower c).data.drop i) = true
          ∧ (∀ j, j < i → (strToLower q).data.isPrefixOf ((strToLower c).data.drop j) = false)
          ∧ ∀ r, searchFileResult q f c = some r →
              r.snippet =
                if (c.data.drop (i - 50)).take
                    (min c.data.length (i + q.data.length + 50) - (i - 50)) = []
                then "Matched in filename"
                else "..." ++ String.mk (((c.data.drop (i - 50)).take
                    (min c.data.length (i + q.data.length + 50) - (i - 50))).map
                    (fun ch => if ch = '\n' then ' ' else ch)) ++ "...") := by
  have hiff1 : includesStr (strToLower c) (strToLower q) = true
      ↔ (strToLower q).data <:+: (strToLower c).data := by
    rw [includesStr]
    exact firstMatchIdx_isSome_iff _ _
  have hiff2 : includesStr (strToLower f) (strToLower q) = true
      ↔ (strToLower q).data <:+: (strToLower f).data := by
    rw [includesStr]
    exact firstMatchIdx_isSome_iff _ _
  refine ⟨?_, ?_, ?_, ?_⟩
  · constructor
    · intro hs
      by_contra hno
      push_neg at hno
      have h1 : includesStr (strToLower c) (strToLower q) = false := by
        cases hx : includesStr (strToLower c) (strToLower q) with
        | false => rfl
        | true => exact absurd (hiff1.mp hx) hno.1
      have h2 : includesStr (strToLower f) (strToLower q) = false := by
        cases hx : includesStr (strToLower f) (strToLower q) with
        | false => rfl
        | true => exact absurd (hiff2.mp hx) hno.2
      simp [searchFileResult, h1, h2] at hs
    · intro hor
      have hcond : (includesStr (strToLower c) (strToLower q)
          || includesStr (strToLower f) (strToLower q)) = true := by
        rcases hor with hh | hh
        · simp [hiff1.mpr hh]
        · simp [hiff2.mpr hh]
      simp [searchFileResult, hcond]
  · intro r hr
    cases hcond : (includesStr (strToLower c) (strToLower q)
        || includesStr (strToLower f) (strToLower q)) with
    | false => simp [searchFileResult, hcond] at hr
    | true =>
      simp only [searchFileResult, hcond, if_pos, Option.some.injEq] at hr
      rw [← hr]
  · intro hnone r hr
    have hS : mkSnippet c q = "" := by
      simp only [mkSnippet, hnone]
    cases hcond : (includesStr (strToLower c) (strToLower q)
        || includesStr (strToLower f) (strToLower q)) with
    | false => simp [searchFileResult, hcond] at hr
    | true =>
      simp only [searchFileResult, hcond, if_pos, Option.some.injEq] at hr
      rw [← hr, hS]
      exact snippet_of_empty f _ _ "" rfl
  · intro i hi
    have hspec := firstMatchIdx_eq_some (strToLower q).data (strToLower c).data i hi
    refine ⟨hspec.1, hspec.2, ?_⟩
    intro r hr
    have hinc : includesStr (strToLower c) (strToLower q) = true := by
      rw [includesStr, hi]
      rfl
    have hcond : (includesStr (strToLower c) (strToLower q)
        || includesStr (strToLower f) (strToLower q)) = true := by
      simp [hinc]
    have hS : mkSnippet c q
        = String.mk (((c.data.drop (i - 50)).take
            (min c.data.length (i + q.data.length + 50) - (i - 50))).map
            (fun ch => if ch = '\n' then ' ' else ch)) := by
      simp only [mkSnippet, hi]
    simp only [searchFileResult, hcond, if_pos, Option.some.injEq] at hr
    rw [← hr, hS]
    by_cases hraw : (c.data.drop (i - 50)).take
        (min c.data.length (i + q.data.length + 50) - (i - 50)) = []
    · rw [if_pos hraw, hraw]
      simp
    · rw [if_neg hraw]
      have hne : (String.mk (((c.data.drop (i - 50)).take
          (min c.data.length (i + q.data.length + 50) - (i - 50))).map
          (fun ch => if ch = '\n' then ' ' else ch)) == "") = false := by
        rw [beq_eq_false_iff_ne]
        intro hc
        apply hraw
        have hdata := congrArg String.data hc
        simpa using hdata
      exact snippet_of_ne f _ _ _ hne

/-- C7 witness: a concrete content match at index 4 in "say hello". -/
theorem search_match_snippet_witness :
    (searchFileResult "hello" "b.md" "say hello").isSome = true
    ∧ (strToLower "hello").data.isPrefixOf ((strToLower "say hello").data.drop 4) = true := by
  have h := search_match_snippet "hello" "b.md" "say hello"
  exact ⟨h.1.mpr (Or.inl (by decide)), (h.2.2.2 4 rfl).1⟩

/-- C8: the `search_notes` results are exactly the matching candidates in
scan order, cut to the first 20 — the loop stops once 20 results are
accumulated — so the result count never exceeds 20, for every query and
every vault. -/
theorem search_results_capped (root : String) (fs : FS) (query : String) :
    searchNotesResults root fs query
        = ((searchCandidates root fs).filterMap
            (fun fc => searchFileResult query fc.1 fc.2)).take 20
    ∧ (searchNotesResults root fs query).length ≤ 20 := by
  have h := searchLoop_eq query (searchCandidates root fs) [] (by decide)
  have heq : searchNotesResults root fs query
      = ((searchCandidates root fs).filterMap
          (fun fc => searchFileResult query fc.1 fc.2)).take 20 := by
    unfold searchNotesResults
    simpa using h
  exact ⟨heq, by rw [heq]; exact List.length_take_le 20 _⟩

/-- C10 counterexample: on the very vault that would witness the claimed
divergence — a markdown file under `.git` whose content matches the query —
`search_notes` does not report it either, because glob's default dot
handling hides `.git` from the search scan just as from the listing scan. -/
theorem dot_dir_search_cex :
    globMd [("/vault/.git/a.md", "hello world"), ("/vault/b.md", "hello")] "/vault"
        searchIgnore = ["b.md"]
    ∧ searchNotesResults "/vault"
        [("/vault/.git/a.md", "hello world"), ("/vault/b.md", "hello")] "hello"
        = [{ path := "b.md", snippet := "...hello..." }]
    ∧ listNotesPaths "/vault"
        [("/vault/.git/a.md", "hello world"), ("/vault/b.md", "hello")] 50 = ["b.md"]
    ∧ listResources "/vault" [("/vault/.git/a.md", "hello world"), ("/vault/b.md", "hello")]
        = [{ uri := "obsidian:///b.md", name := "b.md", mimeType := "text/markdown" }] := by
  exact ⟨rfl, rfl, rfl, rfl⟩

/-- C10 amended: the search scan ignores only `node_modules/**` while the
listing and resource scans also ignore `.git/**` and `.obsidian/**`, but the
extra patterns are redundant: glob's default dot handling already hides
every path with a dot-initial segment, so on every vault the two scans
enumerate exactly the same candidates. -/
theorem scanner_ignore_equiv :
    searchIgnore = ["node_modules/**"]
    ∧ listIgnore = ["node_modules/**", ".git/**", ".obsidian/**"]
    ∧ ∀ (root : String) (fs : FS), globMd fs root searchIgnore = globMd fs root listIgnore := by
  refine ⟨rfl, rfl, fun root fs => ?_⟩
  unfold globMd
  exact List.filterMap_congr (fun e _ => globEntry_search_eq_list root e)

end Obsidian
